import Mathlib

/-!
Shallow embedding of the learning engines in `network.py` and `lvq.py`
(repository Liambeguin/ele778), together with theorems checking the
natural-language specification against the code.

Machine floats are modelled by exact rationals; column vectors `(n, 1)`
become `List ℚ`, matrices become `List (List ℚ)`.  The strategy libraries
(`lib.activation`, `lib.cost`, `lib.regularization`, `lib.lvq.distance`,
`lib.lvq.weight_init`) are not part of the sources under verification, so
their functions appear as abstract fields / parameters.
-/

/-- A numeric column vector, e.g. a numpy `(n, 1)` array. -/
abbrev Vec : Type := List ℚ

/-- A numeric matrix, a numpy `(m, n)` array as a list of rows. -/
abbrev Mat : Type := List (List ℚ)

/-- Elementwise addition of vectors (numpy `+` on equal shapes). -/
def vadd (v w : Vec) : Vec := List.zipWith (· + ·) v w

/-- Elementwise subtraction of vectors. -/
def vsub (v w : Vec) : Vec := List.zipWith (· - ·) v w

/-- Elementwise (Hadamard) product of vectors (numpy `*`). -/
def hadamard (v w : Vec) : Vec := List.zipWith (· * ·) v w

/-- Scalar times vector. -/
def smulV (c : ℚ) (v : Vec) : Vec := v.map (fun a => c * a)

/-- Dot product of two vectors. -/
def dotQ (v w : Vec) : ℚ := (List.zipWith (· * ·) v w).sum

/-- Matrix–vector product, `np.dot(m, v)` for `m : (r, c)`, `v : (c, 1)`. -/
def matVec (m : Mat) (v : Vec) : Vec := m.map (fun row => dotQ row v)

/-- Outer product `np.dot(d, a.transpose())` of `(n,1)` and `(m,1)` columns. -/
def outer (v w : Vec) : Mat := v.map (fun a => w.map (fun b => a * b))

/-- Elementwise addition of matrices. -/
def madd (A B : Mat) : Mat := List.zipWith vadd A B

/-- Elementwise subtraction of matrices. -/
def msub (A B : Mat) : Mat := List.zipWith vsub A B

/-- Scalar times matrix. -/
def smulM (c : ℚ) (A : Mat) : Mat := A.map (smulV c)

/-- Layerwise addition of lists of bias vectors (`np.add` on object arrays). -/
def addVecs (a b : List Vec) : List Vec := List.zipWith vadd a b

/-- Layerwise addition of lists of weight matrices. -/
def addMats (a b : List Mat) : List Mat := List.zipWith madd a b

/-- `np.multiply(np.array(bs, copy=True), 0)`: a zero list of vectors with
the shape of `bs`. -/
def zeroB (bs : List Vec) : List Vec := bs.map (fun b => b.map (fun _ => 0))

/-- `np.multiply(np.array(ws, copy=True), 0)`: a zero list of matrices with
the shape of `ws`. -/
def zeroW (ws : List Mat) : List Mat :=
  ws.map (fun w => w.map (fun r => r.map (fun _ => 0)))

/-! ### Helper lemmas about `List.set` and `List.getD` -/

theorem getD_set_self {α : Type} (l : List α) (i : Nat) (a d : α)
    (h : i < l.length) : (l.set i a).getD i d = a := by
  induction l generalizing i with
  | nil => simp at h
  | cons x xs ih =>
    cases i with
    | zero => simp [List.set, List.getD]
    | succ j =>
      simp only [List.set, List.getD_cons_succ]
      exact ih j (by simpa using h)

theorem getD_set_ne {α : Type} (l : List α) (i j : Nat) (a d : α)
    (h : i ≠ j) : (l.set i a).getD j d = l.getD j d := by
  induction l generalizing i j with
  | nil => simp [List.set]
  | cons x xs ih =>
    cases i with
    | zero =>
      cases j with
      | zero => exact absurd rfl h
      | succ k => simp [List.set]
    | succ i' =>
      cases j with
      | zero => simp [List.set]
      | succ k =>
        simp only [List.set, List.getD_cons_succ]
        exact ih i' k (fun hh => h (by rw [hh]))

theorem length_set' {α : Type} (l : List α) (i : Nat) (a : α) :
    (l.set i a).length = l.length := by simp

/-! ### `np.argmin`: index of the first minimal element -/

/-- Auxiliary scan for `argminQ`: carries the best `(value, index)` pair so
far and the index of the head of the remaining list; a later element
replaces the best only when strictly smaller, so the first minimum wins. -/
def argminAux : List ℚ → ℚ × Nat → Nat → ℚ × Nat
  | [], best, _ => best
  | x :: xs, (bv, bi), i =>
    if x < bv then argminAux xs (x, i) (i + 1)
    else argminAux xs (bv, bi) (i + 1)

/-- `np.argmin` on a list of rationals: index of the first minimal element
(`0` on the empty list, which `np.argmin` rejects). -/
def argminQ : List ℚ → Nat
  | [] => 0
  | x :: xs => (argminAux xs (x, 0) 1).2

theorem argminAux_spec (xs : List ℚ) (bv : ℚ) (bi i : Nat) :
    (argminAux xs (bv, bi) i).1 ≤ bv ∧
    (∀ k, k < xs.length → (argminAux xs (bv, bi) i).1 ≤ xs.getD k 0) ∧
    (((argminAux xs (bv, bi) i).1 = bv ∧ (argminAux xs (bv, bi) i).2 = bi) ∨
      (∃ k, k < xs.length ∧ (argminAux xs (bv, bi) i).2 = i + k ∧
        (argminAux xs (bv, bi) i).1 = xs.getD k 0 ∧
        (argminAux xs (bv, bi) i).1 < bv ∧
        ∀ j, j < k → (argminAux xs (bv, bi) i).1 < xs.getD j 0)) := by
  induction xs generalizing bv bi i with
  | nil => simp [argminAux]
  | cons x xs ih =>
    by_cases hx : x < bv
    · have hrw : argminAux (x :: xs) (bv, bi) i = argminAux xs (x, i) (i + 1) := by
        simp [argminAux, hx]
      obtain ⟨h1, h2, h3⟩ := ih x i (i + 1)
      rw [hrw]
      refine ⟨le_of_lt (lt_of_le_of_lt h1 hx), ?_, ?_⟩
      · intro k hk
        cases k with
        | zero => simpa using h1
        | succ k' => exact h2 k' (by simpa using hk)
      · rcases h3 with ⟨he, hi⟩ | ⟨k, hk, hik, hvk, hlt, hfirst⟩
        · refine Or.inr ⟨0, by simp, by omega, by simpa using he, by rw [he]; exact hx, ?_⟩
          intro j hj; omega
        · refine Or.inr ⟨k + 1, by simpa using hk, by omega, by simpa using hvk,
            lt_trans hlt hx, ?_⟩
          intro j hj
          cases j with
          | zero => simpa using hlt
          | succ j' => exact hfirst j' (by omega)
    · have hrw : argminAux (x :: xs) (bv, bi) i = argminAux xs (bv, bi) (i + 1) := by
        simp [argminAux, hx]
      obtain ⟨h1, h2, h3⟩ := ih bv bi (i + 1)
      rw [hrw]
      refine ⟨h1, ?_, ?_⟩
      · intro k hk
        cases k with
        | zero => simpa using le_trans h1 (le_of_not_lt hx)
        | succ k' => exact h2 k' (by simpa using hk)
      · rcases h3 with ⟨he, hi⟩ | ⟨k, hk, hik, hvk, hlt, hfirst⟩
        · exact Or.inl ⟨he, hi⟩
        · refine Or.inr ⟨k + 1, by simpa using hk, by omega, by simpa using hvk, hlt, ?_⟩
          intro j hj
          cases j with
          | zero => simpa using lt_of_lt_of_le hlt (le_of_not_lt hx)
          | succ j' => exact hfirst j' (by omega)

/-- Characterization of `argminQ` on a nonempty list: the result is a valid
index, its value is a minimum, and every earlier index holds a strictly
larger value (first-minimum tie-break). -/
theorem argminQ_spec (l : List ℚ) (h : l ≠ []) :
    argminQ l < l.length ∧
    (∀ j, j < l.length → l.getD (argminQ l) 0 ≤ l.getD j 0) ∧
    (∀ j, j < argminQ l → l.getD (argminQ l) 0 < l.getD j 0) := by
  cases l with
  | nil => exact absurd rfl h
  | cons x xs =>
    obtain ⟨h1, h2, h3⟩ := argminAux_spec xs x 0 1
    rcases h3 with ⟨he, hi⟩ | ⟨k, hk, hik, hvk, hlt, hfirst⟩
    · have hidx : argminQ (x :: xs) = 0 := hi
      refine ⟨by simp [hidx], ?_, ?_⟩
      · intro j hj
        cases j with
        | zero => simp [hidx]
        | succ j' =>
          have := h2 j' (by simpa using hj)
          simpa [hidx, he] using this
      · intro j hj; rw [hidx] at hj; omega
    · have hidx : argminQ (x :: xs) = k + 1 := by
        simp only [argminQ]; omega
      have hval : (x :: xs).getD (argminQ (x :: xs)) 0 = (argminAux xs (x, 0) 1).1 := by
        rw [hidx]; simpa using hvk.symm
      refine ⟨by simp [hidx]; omega, ?_, ?_⟩
      · intro j hj
        cases j with
        | zero => rw [hval]; simpa using le_of_lt hlt
        | succ j' =>
          rw [hval]
          simpa using h2 j' (by simpa using hj)
      · intro j hj
        rw [hidx] at hj
        cases j with
        | zero => rw [hval]; simpa using hlt
        | succ j' =>
          rw [hval]
          simpa using hfirst j' (by omega)

/-! ### The `Network` engine (`network.py`) -/

/-- State of a `Network` instance.  The strategy objects
(`ActivationFunction`, `CostFunction`, `RegularizationFunction`) live in
`lib`, outside the verified sources, so they are embedded as abstract
function fields next to their string keys.  The instance caches `self.a`
and `self.z` are not stored: `feedforward` returns them and
`backpropagation` consumes them directly on the same call, exactly as the
code writes then immediately reads them. -/
structure Network where
  struct : List Nat
  n_layers : Nat
  activationType : String
  activationFn : Vec → Vec
  activationDeriv : Vec → Vec
  costType : String
  costDeriv : Vec → Vec → Vec
  regDeriv : Mat → ℚ → Nat → Mat
  eta : ℚ
  alpha : ℚ
  lambda_ : ℚ
  biases : List Vec
  weights : List Mat

namespace Network

/-- The loop of `feedforward`: walks the `(bias, weight)` pairs, computing
`z = np.dot(w, act) + b` and `act = activation(z)`, and returns the lists
`a_list` (input included) and `z_list`. -/
def ffGo (f : Vec → Vec) : List (Vec × Mat) → Vec → List Vec × List Vec
  | [], act => ([act], [])
  | (b, w) :: rest, act =>
    let z := vadd (matVec w act) b
    let r := ffGo f rest (f z)
    (act :: r.1, z :: r.2)

/-- `Network.feedforward`, returning the cached `(a_list, z_list)`. -/
def feedforward (net : Network) (X : Vec) : List Vec × List Vec :=
  ffGo net.activationFn (net.biases.zip net.weights) X

/-- The return value of the Python `feedforward`: `self.a[-1]`. -/
def feedforwardOut (net : Network) (X : Vec) : Vec :=
  (net.feedforward X).1.getD ((net.feedforward X).1.length - 1) []

/-- The backward loop of `backpropagation`: `for l in xrange(2, n_layers)`,
executed `steps = n_layers - 2` times with `l` starting at `2`.  Python's
negative indices `weights[-l+1]`, `z[-l]`, `nabla_b[-l]`, `a[-l-1]` are
each list's length minus the offset. -/
def bpLoop (ad : Vec → Vec) (ws : List Mat) (zs aList : List Vec) :
    Nat → Nat → Vec → List Vec → List Mat → List Vec × List Mat
  | 0, _, _, nb, nw => (nb, nw)
  | steps + 1, l, delta, nb, nw =>
    let delta' := hadamard
      (matVec (ws.getD (ws.length - l + 1) []).transpose delta)
      (ad (zs.getD (zs.length - l) []))
    bpLoop ad ws zs aList steps (l + 1) delta'
      (nb.set (nb.length - l) delta')
      (nw.set (nw.length - l) (outer delta' (aList.getD (aList.length - l - 1) [])))

/-- `Network.backpropagation`: zero-shaped accumulators, a `feedforward`
pass, the output-layer error (with the cross-entropy special case), the
last-layer gradients, then the backward loop. -/
def backpropagation (net : Network) (X y : Vec) : List Vec × List Mat :=
  let nb0 := zeroB net.biases
  let nw0 := zeroW net.weights
  let r := net.feedforward X
  let aLast := r.1.getD (r.1.length - 1) []
  let zLast := r.2.getD (r.2.length - 1) []
  let delta :=
    if net.costType = "cross-entropy" then net.costDeriv aLast y
    else hadamard (net.costDeriv aLast y) (net.activationDeriv zLast)
  let nb1 := nb0.set (nb0.length - 1) delta
  let nw1 := nw0.set (nw0.length - 1)
    (outer delta (r.1.getD (r.1.length - 2) []))
  bpLoop net.activationDeriv net.weights r.2 r.1 (net.n_layers - 2) 2 delta nb1 nw1

/-- `zip(*[iter(tr_d)]*batch_size)`: consecutive groups of `batch_size`
elements, dropping a trailing remainder shorter than `batch_size` (and
yielding nothing when `batch_size = 0`, as `zip()` does). -/
def batches (n : Nat) (xs : List α) : List (List α) :=
  if h : n ≠ 0 ∧ n ≤ xs.length then xs.take n :: batches n (xs.drop n)
  else []
  termination_by xs.length
  decreasing_by
    obtain ⟨h1, h2⟩ := h
    simp only [List.length_drop]
    omega

/-- The inner loop of one mini-batch: sum the per-example gradients from
`backpropagation` into accumulators that start at zero, using the
parameters the network had at the start of the batch. -/
def accumulate (net : Network) (batch : List (Vec × Vec)) :
    List Vec × List Mat :=
  batch.foldl
    (fun acc xy =>
      (addVecs acc.1 (net.backpropagation xy.1 xy.2).1,
       addMats acc.2 (net.backpropagation xy.1 xy.2).2))
    (zeroB net.biases, zeroW net.weights)

/-- The parameter update at the end of one mini-batch:
`b - eta * nabla_bC` and `w - eta * (nabla_wC + regularization.derivative(w,
lambda_, n))`, where `n` is the training-set size. -/
def batchUpdate (n : Nat) (net : Network) (batch : List (Vec × Vec)) :
    Network :=
  let acc := net.accumulate batch
  { net with
    biases := List.zipWith (fun b nb => vsub b (smulV net.eta nb))
      net.biases acc.1,
    weights := List.zipWith
      (fun w nw => msub w (smulM net.eta (madd nw (net.regDeriv w net.lambda_ n))))
      net.weights acc.2 }

/-- One epoch of `Network.train`, applied to the (already shuffled)
training list; `n` is `len(tr_d)`. -/
def epoch (bsz n : Nat) (net : Network) (shuffled : List (Vec × Vec)) :
    Network :=
  (batches bsz shuffled).foldl (batchUpdate n) net

/-- `Network.train` restricted to its parameter updates: one `epoch` per
entry of `perms`, each entry being the training list as shuffled by
`random.shuffle` at the top of that epoch.  The monitoring block only
evaluates metrics and never writes the parameters. -/
def train (bsz : Nat) (tr_d : List (Vec × Vec))
    (perms : List (List (Vec × Vec))) (net : Network) : Network :=
  perms.foldl (fun nt p => epoch bsz tr_d.length nt p) net

/-- The dictionary written by `Network.save` (the YAML file holds exactly
these fields; serialization of the numbers is value-preserving). -/
structure SavedData where
  struct : List Nat
  activation : String
  cost : String
  eta : ℚ
  weights : List Mat
  biases : List Vec

/-- `Network.save`. -/
def save (net : Network) : SavedData :=
  ⟨net.struct, net.activationType, net.costType, net.eta,
    net.weights, net.biases⟩

/-- `Network.load`: re-resolves the strategy objects from their string
keys via the `lib` constructors, passed here as the resolution functions
`resolveA` (value and derivative of an `ActivationFunction`) and
`resolveC` (derivative of a `CostFunction`); restores `struct`, `eta` and
the parameter arrays.  The remaining fields (`n_layers`, regularization,
`alpha`, `lambda_`) are not touched by the Python code. -/
def load (resolveA : String → (Vec → Vec) × (Vec → Vec))
    (resolveC : String → Vec → Vec → Vec)
    (net : Network) (d : SavedData) : Network :=
  { net with
    struct := d.struct,
    activationType := d.activation,
    activationFn := (resolveA d.activation).1,
    activationDeriv := (resolveA d.activation).2,
    costType := d.cost,
    costDeriv := resolveC d.cost,
    eta := d.eta,
    biases := d.biases,
    weights := d.weights }

end Network

/-- Construction-time failures.  The code raises a plain `Exception` whose
message is "cross-entropy can only be used with a sigmoid activation"; the
spec names this condition `IncompatibleCostActivation`, and an unknown
strategy key `UnsupportedStrategy`. -/
inductive NetError where
  | IncompatibleCostActivation
  | UnsupportedStrategy (family key : String)
deriving DecidableEq

/-- Modelled from the spec: the strategy libraries (`lib.activation`,
`lib.cost`, `lib.regularization` are not among the sources) resolve a
string key to a function object and fail on an unknown key.  They are
embedded as partial maps from keys to the functions the engine uses. -/
structure StrategyEnv where
  act : String → Option ((Vec → Vec) × (Vec → Vec))
  cost : String → Option (Vec → Vec → Vec)
  reg : String → Option (Mat → ℚ → Nat → Mat)

/-- The bias allocation of `Network.__init__`:
`[np.random.randn(y, 1) for y in struct[1:]]`, with the Gaussian draws
supplied by the stream `randB layer index`. -/
def mkBiases (randB : Nat → Nat → ℚ) (struct : List Nat) : List Vec :=
  (struct.drop 1).enum.map
    (fun p => (List.range p.2).map (fun j => randB p.1 j))

/-- The weight allocation of `Network.__init__`:
`[np.random.randn(y, x) / np.sqrt(x) for x, y in zip(struct[:-1], struct[1:])]`.
The draws come from the stream `randW layer row col` and `rsqrt x` stands
for the (irrational) factor `1 / sqrt(x)`. -/
def mkWeights (randW : Nat → Nat → Nat → ℚ) (rsqrt : Nat → ℚ)
    (struct : List Nat) : List Mat :=
  (struct.dropLast.zip (struct.drop 1)).enum.map
    (fun p => (List.range p.2.2).map
      (fun j => (List.range p.2.1).map (fun k => randW p.1 j k * rsqrt p.2.1)))

/-- `Network.__init__`: first the cost/activation compatibility check, then
strategy resolution, then parameter allocation. -/
def mkNetwork (env : StrategyEnv) (struct : List Nat)
    (activation cost regularization : String)
    (learning_rate momentum lambda_ : ℚ)
    (randB : Nat → Nat → ℚ) (randW : Nat → Nat → Nat → ℚ)
    (rsqrt : Nat → ℚ) : Except NetError Network :=
  if cost = "cross-entropy" ∧ activation ≠ "sigmoid" then
    .error .IncompatibleCostActivation
  else
    match env.reg regularization with
    | none => .error (.UnsupportedStrategy "regularization" regularization)
    | some rg =>
      match env.act activation with
      | none => .error (.UnsupportedStrategy "activation" activation)
      | some af =>
        match env.cost cost with
        | none => .error (.UnsupportedStrategy "cost" cost)
        | some cf =>
          .ok { struct := struct
                n_layers := struct.length
                activationType := activation
                activationFn := af.1
                activationDeriv := af.2
                costType := cost
                costDeriv := cf
                regDeriv := rg
                eta := learning_rate
                alpha := momentum
                lambda_ := lambda_
                biases := mkBiases randB struct
                weights := mkWeights randW rsqrt struct }

/-! ### The `LVQ` engine (`lvq.py`) -/

/-- State of an `LVQ` instance.  `DistanceFunction` and
`WeightInitFunction` live in `lib.lvq`, outside the verified sources, and
are embedded as abstract function fields.  `weights` is `None` until the
first `train` call initializes it (`init` mirrors `self.init`). -/
structure LVQ where
  input_size : Nat
  output_size : Nat
  ppc : Nat
  dist : Vec → Vec → ℚ
  winit : Nat → Nat → Nat → List (Vec × Nat) → List Vec
  weights : Option (List Vec)
  init : Bool

namespace LVQ

/-- The body of the per-example loop of `LVQ.train`: distances to every
prototype, the best matching unit `bmu = np.argmin(d)`, the sign
`s = 1` when `bmu % output_size == y` else `-1`, and the in-place update
`weights[bmu] += s * eta * (x - weights[bmu])`.  Returns the updated
prototype list together with `s` (which the eta-decay step reads later). -/
def trainStep (dist : Vec → Vec → ℚ) (osize : Nat) (eta : ℚ)
    (ws : List Vec) (x : Vec) (y : Nat) : List Vec × ℚ :=
  let d := ws.map (fun w => dist x w)
  let bmu := argminQ d
  let s : ℚ := if bmu % osize = y then 1 else -1
  (ws.set bmu (vadd (ws.getD bmu []) (smulV (s * eta) (vsub x (ws.getD bmu [])))), s)

/-- One pass of `LVQ.train` over the training list, threading the
prototype list and the last sign `s` through the example loop. -/
def sweep (dist : Vec → Vec → ℚ) (osize : Nat) (eta : ℚ)
    (tr_d : List (Vec × Nat)) (ws : List Vec) (s : ℚ) : List Vec × ℚ :=
  tr_d.foldl (fun acc xy => trainStep dist osize eta acc.1 xy.1 xy.2) (ws, s)

/-- `LVQ.feedforward` on an explicit prototype list:
`np.argmin(distances) % output_size`. -/
def classifyW (dist : Vec → Vec → ℚ) (osize : Nat) (ws : List Vec)
    (x : Vec) : Nat :=
  argminQ (ws.map (fun w => dist x w)) % osize

/-- `LVQ.feedforward`: iterating `self.weights` raises when the model was
never trained or loaded (`weights is None`), embedded as `none`. -/
def feedforward (lvq : LVQ) (x : Vec) : Option Nat :=
  match lvq.weights with
  | none => none
  | some ws => some (classifyW lvq.dist lvq.output_size ws x)

/-- `LVQ.eval_accuracy` on an explicit prototype list: the number of
examples with `feedforward(x) == y`. -/
def evalAccuracyW (dist : Vec → Vec → ℚ) (osize : Nat) (ws : List Vec)
    (data : List (Vec × Nat)) : Nat :=
  data.foldl (fun c xy => if classifyW dist osize ws xy.1 = xy.2 then c + 1 else c) 0

/-- `LVQ.eval_error_rate` on an explicit prototype list:
`1.0 - accuracy / len(data)`. -/
def evalErrorRateW (dist : Vec → Vec → ℚ) (osize : Nat) (ws : List Vec)
    (data : List (Vec × Nat)) : ℚ :=
  1 - (evalAccuracyW dist osize ws data : ℚ) / (data.length : ℚ)

/-- The epoch loop of `LVQ.train` (`for i in xrange(0, epochs)`), counting
the remaining epochs: sweep the training list, optionally decay `eta`
(`eta / (1 + s·eta)` when `eta < 1` else `1`, with `s` the sign left by
the last update), append the training error rate, and on a validation set
append its error rate and break when `estop` holds and it is below `0.01`.
Returns `(tr_err, va_err, final prototypes)`. -/
def trainGo (dist : Vec → Vec → ℚ) (osize : Nat) (etaDecay estop : Bool)
    (tr_d : List (Vec × Nat)) (va_d : Option (List (Vec × Nat))) :
    Nat → List Vec → ℚ → ℚ → List ℚ → List ℚ → List ℚ × List ℚ × List Vec
  | 0, ws, _, _, trE, vaE => (trE, vaE, ws)
  | epochs + 1, ws, eta, s, trE, vaE =>
    let r := sweep dist osize eta tr_d ws s
    let eta' := if etaDecay then (if eta < 1 then eta / (1 + r.2 * eta) else 1) else eta
    let trE' := trE ++ [evalErrorRateW dist osize r.1 tr_d]
    match va_d with
    | none => trainGo dist osize etaDecay estop tr_d none epochs r.1 eta' r.2 trE' vaE
    | some vd =>
      let verr := evalErrorRateW dist osize r.1 vd
      let vaE' := vaE ++ [verr]
      if estop ∧ verr < 1 / 100 then (trE', vaE', r.1)
      else trainGo dist osize etaDecay estop tr_d (some vd) epochs r.1 eta' r.2 trE' vaE'

/-- `LVQ.train`: lazily initialize the prototypes from the training set on
the first call, then run the epoch loop.  The sign `s` starts at `1`
(Python leaves it unbound until the first example; no claim concerns an
empty training list with decay).  Returns the histories and the updated
instance. -/
def train (lvq : LVQ) (tr_d : List (Vec × Nat)) (eta : ℚ) (epochs : Nat)
    (etaDecay : Bool) (va_d : Option (List (Vec × Nat))) (estop : Bool) :
    List ℚ × List ℚ × LVQ :=
  let ws0 :=
    if lvq.init then lvq.weights.getD []
    else lvq.winit lvq.input_size lvq.output_size lvq.ppc tr_d
  let r := trainGo lvq.dist lvq.output_size etaDecay estop tr_d va_d
    epochs ws0 eta 1 [] []
  (r.1, r.2.1, { lvq with weights := some r.2.2, init := true })

/-- `LVQ.get_confusion` on an explicit prototype list: starts from
`np.zeros((output_size, output_size))` and does `mat[y][a] += 1.0` for
every `(x, y)` with `a = feedforward(x)`. -/
def getConfusionW (dist : Vec → Vec → ℚ) (osize : Nat) (ws : List Vec)
    (data : List (Vec × Nat)) : Mat :=
  data.foldl
    (fun mat xy =>
      let a := classifyW dist osize ws xy.1
      mat.set xy.2 ((mat.getD xy.2 []).set a ((mat.getD xy.2 []).getD a 0 + 1)))
    (List.replicate osize (List.replicate osize (0 : ℚ)))

/-- `LVQ.get_confusion` on the instance. -/
def getConfusion (lvq : LVQ) (data : List (Vec × Nat)) : Option Mat :=
  match lvq.weights with
  | none => none
  | some ws => some (getConfusionW lvq.dist lvq.output_size ws data)

end LVQ

/-! ### Spec-side definitions (used to state the refinement claims) -/

/-- The spec's backward error recursion, written from the spec's words:
with transitions `0, …, L-1`, the output-layer error is `dOut` and
`delta_l = (W_{l+1}ᵗ · delta_{l+1}) ⊙ activation.derivative(z_l)` for `l`
from `L-2` down to `0`.  `specDelta … k` is `delta_{L-1-k}`, so that the
recursion is structural in `k`. -/
def specDelta (ad : Vec → Vec) (ws : List Mat) (zs : List Vec)
    (dOut : Vec) (L : Nat) : Nat → Vec
  | 0 => dOut
  | k + 1 =>
    hadamard
      (matVec (ws.getD (L - 1 - k) []).transpose (specDelta ad ws zs dOut L k))
      (ad (zs.getD (L - 2 - k) []))

/-- The spec's output-layer error: `cost.derivative(a_last, y)`, multiplied
elementwise by `activation.derivative(z_last)` unless the cost is
cross-entropy. -/
def specDeltaOut (net : Network) (X y : Vec) : Vec :=
  let r := net.feedforward X
  let aLast := r.1.getD (r.1.length - 1) []
  let zLast := r.2.getD (r.2.length - 1) []
  if net.costType = "cross-entropy" then net.costDeriv aLast y
  else hadamard (net.costDeriv aLast y) (net.activationDeriv zLast)

/-- The spec's batching: partition into consecutive groups of `n`,
dropping a trailing remainder smaller than `n` — group `i` is the `n`
elements starting at offset `i * n`. -/
def specChunks (n : Nat) (xs : List α) : List (List α) :=
  (List.range (xs.length / n)).map (fun i => (xs.drop (i * n)).take n)

/-- The spec's mini-batch update, written from the spec's words: sum the
per-example gradients from `backpropagation` into zero-initialized
accumulators shaped like the parameters, then apply
`b -= eta·nabla_b` and `w -= eta·(nabla_w + regularization.derivative(w,
lambda, n))`, with the regularization term applied once per batch. -/
def specBatchUpdate (n : Nat) (net : Network) (batch : List (Vec × Vec)) :
    Network :=
  let nb := (batch.map (fun xy => (net.backpropagation xy.1 xy.2).1)).foldl
    addVecs (zeroB net.biases)
  let nw := (batch.map (fun xy => (net.backpropagation xy.1 xy.2).2)).foldl
    addMats (zeroW net.weights)
  { net with
    biases := List.zipWith (fun b g => vsub b (smulV net.eta g)) net.biases nb,
    weights := List.zipWith
      (fun w g => msub w (smulM net.eta (madd g (net.regDeriv w net.lambda_ n))))
      net.weights nw }

/-! ### Concrete instances and measurement helpers -/

/-- Modelled from the spec: `lib.lvq.distance` (not among the sources)
provides the euclidean distance `sqrt(sum((x_i - w_i)^2))`.  The engine
only ever compares distances through `np.argmin`, and the square root is
strictly monotone, so the model uses the squared euclidean distance to
stay inside the rationals; every `argmin` result is unchanged. -/
def sqEuclid (x w : Vec) : ℚ :=
  (List.zipWith (fun a b => (a - b) * (a - b)) x w).sum

/-- A concrete strategy environment used to instantiate theorems: the
identity stands in for the (irrational) sigmoid and its derivative. -/
def envId : StrategyEnv :=
  { act := fun s => if s = "sigmoid" then some (fun v => v, fun v => v) else none,
    cost := fun s =>
      if s = "cross-entropy" ∨ s = "quadratic" then some vsub else none,
    reg := fun s =>
      if s = "none" ∨ s = "L2" then some (fun w _ _ => smulM 0 w) else none }

/-- The `Network` produced by
`mkNetwork envId [2,2] "sigmoid" "quadratic" "none" 3 (1/2) (1/10)` with
all Gaussian draws equal to `1` and `rsqrt = 1`: a freshly constructed,
never trained, never loaded instance. -/
def netFresh : Network :=
  { struct := [2, 2], n_layers := 2, activationType := "sigmoid",
    activationFn := fun v => v, activationDeriv := fun v => v,
    costType := "quadratic", costDeriv := vsub,
    regDeriv := fun w _ _ => smulM 0 w,
    eta := 3, alpha := 1 / 2, lambda_ := 1 / 10,
    biases := [[1, 1]], weights := [[[1, 1], [1, 1]]] }

/-- A freshly constructed `LVQ` instance: no `train` call, no loaded
prototypes (`weights is None`, `init = False`). -/
def lvq0 : LVQ :=
  { input_size := 2, output_size := 2, ppc := 1, dist := sqEuclid,
    winit := fun _ _ _ _ => [], weights := none, init := false }

/-- Sum of row `i` of a matrix. -/
def rowSum (m : Mat) (i : Nat) : ℚ := (m.getD i []).sum

/-- Trace of the top-left `osize × osize` block of a matrix. -/
def traceQ (m : Mat) (osize : Nat) : ℚ :=
  ((List.range osize).map (fun i => (m.getD i []).getD i 0)).sum

/-- Number of examples in `data` whose true label is `i`. -/
def countLabel (data : List (Vec × Nat)) (i : Nat) : Nat :=
  (data.filter (fun xy => decide (xy.2 = i))).length

/-! ### More helper lemmas on lists -/

theorem getD_append_lt {α : Type} (l1 l2 : List α) (i : Nat) (d : α)
    (h : i < l1.length) : (l1 ++ l2).getD i d = l1.getD i d := by
  induction l1 generalizing i with
  | nil => simp at h
  | cons x xs ih =>
    cases i with
    | zero => simp
    | succ j => simpa using ih j (by simpa using h)

theorem getD_concat_len {α : Type} (l : List α) (a d : α) :
    (l ++ [a]).getD l.length d = a := by
  induction l with
  | nil => simp
  | cons x xs ih => simpa using ih

theorem sum_set (v : List ℚ) (a : Nat) (x : ℚ) (h : a < v.length) :
    (v.set a x).sum = v.sum - v.getD a 0 + x := by
  induction v generalizing a with
  | nil => simp at h
  | cons b bs ih =>
    cases a with
    | zero => simp [List.set]; ring
    | succ a' =>
      simp only [List.set, List.sum_cons, List.getD_cons_succ]
      rw [ih a' (by simpa using h)]
      ring

theorem getD_replicate {α : Type} (n i : Nat) (r d : α) (h : i < n) :
    (List.replicate n r).getD i d = r := by
  induction n generalizing i with
  | zero => omega
  | succ m ih =>
    cases i with
    | zero => simp [List.replicate]
    | succ j => simpa [List.replicate] using ih j (by omega)

theorem foldl_pair {α β γ : Type} (f : α → γ → α) (g : β → γ → β)
    (l : List γ) (a : α) (b : β) :
    l.foldl (fun acc c => (f acc.1 c, g acc.2 c)) (a, b) =
      (l.foldl f a, l.foldl g b) := by
  induction l generalizing a b with
  | nil => rfl
  | cons x xs ih => simpa using ih (f a x) (g b x)

theorem ffGo_lengths (f : Vec → Vec) (pairs : List (Vec × Mat)) (act : Vec) :
    (Network.ffGo f pairs act).1.length = pairs.length + 1 ∧
    (Network.ffGo f pairs act).2.length = pairs.length := by
  induction pairs generalizing act with
  | nil => simp [Network.ffGo]
  | cons p rest ih =>
    obtain ⟨h1, h2⟩ := ih (f (vadd (matVec p.2 act) p.1))
    simp only [Network.ffGo]
    constructor <;> simp [h1, h2]

/-! ### Claim theorems -/

/-- C3: for every training example `(x, y)` processed by the per-example
update of `LVQ.train` on a prototype list, exactly the best-matching
prototype (first index of minimal distance to `x`) is updated, moving
toward `x` by `eta·(x - w)` when its class `bmu % output_size` equals `y`
and away by `-eta·(x - w)` otherwise, while every other prototype is
unchanged.  (The spec's concrete scenario is the witness below.) -/
theorem lvq_trainStep_bmu_update (dist : Vec → Vec → ℚ) (osize : Nat)
    (eta : ℚ) (ws : List Vec) (x : Vec) (y : Nat) (hne : ws ≠ []) :
    ∀ b, b = argminQ (ws.map (fun w => dist x w)) →
    b < ws.length ∧
    (∀ j, j < ws.length →
      (ws.map (fun w => dist x w)).getD b 0 ≤ (ws.map (fun w => dist x w)).getD j 0) ∧
    (∀ j, j < b →
      (ws.map (fun w => dist x w)).getD b 0 < (ws.map (fun w => dist x w)).getD j 0) ∧
    (b % osize = y →
      (LVQ.trainStep dist osize eta ws x y).1.getD b [] =
        vadd (ws.getD b []) (smulV eta (vsub x (ws.getD b [])))) ∧
    (b % osize ≠ y →
      (LVQ.trainStep dist osize eta ws x y).1.getD b [] =
        vadd (ws.getD b []) (smulV (-eta) (vsub x (ws.getD b [])))) ∧
    (∀ j, j ≠ b → (LVQ.trainStep dist osize eta ws x y).1.getD j [] = ws.getD j []) ∧
    (LVQ.trainStep dist osize eta ws x y).1.length = ws.length := by
  intro b hb
  have hd : ws.map (fun w => dist x w) ≠ [] := by
    cases ws with
    | nil => exact absurd rfl hne
    | cons w ws' => simp
  obtain ⟨hlt, hmin, hfirst⟩ := argminQ_spec (ws.map (fun w => dist x w)) hd
  rw [← hb] at hlt hmin hfirst
  have hblen : b < ws.length := by simpa using hlt
  have hws' : (LVQ.trainStep dist osize eta ws x y).1 =
      ws.set b (vadd (ws.getD b [])
        (smulV ((if b % osize = y then (1 : ℚ) else -1) * eta)
          (vsub x (ws.getD b [])))) := by
    simp only [LVQ.trainStep, ← hb]
  refine ⟨hblen, fun j hj => hmin j (by simpa using hj), hfirst, ?_, ?_, ?_, ?_⟩
  · intro hy
    rw [hws', if_pos hy, one_mul, getD_set_self _ _ _ _ hblen]
  · intro hy
    rw [hws', if_neg hy, neg_one_mul, getD_set_self _ _ _ _ hblen]
  · intro j hj
    rw [hws', getD_set_ne _ _ _ _ _ (Ne.symm hj)]
  · rw [hws']; simp

/-- C3 witness: the spec's scenario — `output_size = 2`, prototypes
`[[0,0],[1,1]]`, example `((0.1, 0.1), 0)`, `eta = 0.5`: the class-0
prototype lands at `(0.05, 0.05)` and the other prototype is unchanged. -/
theorem lvq_trainStep_bmu_update_witness :
    (([[(0 : ℚ), 0], [1, 1]] : List Vec) ≠ []) ∧
    (0 = argminQ (([[(0 : ℚ), 0], [1, 1]] : List Vec).map (fun w => sqEuclid [1/10, 1/10] w))) ∧
    (LVQ.trainStep sqEuclid 2 (1/2) [[0, 0], [1, 1]] [1/10, 1/10] 0).1.getD 0 [] =
      [1/20, 1/20] ∧
    (LVQ.trainStep sqEuclid 2 (1/2) [[0, 0], [1, 1]] [1/10, 1/10] 0).1.getD 1 [] =
      [1, 1] := by
  have h := lvq_trainStep_bmu_update sqEuclid 2 (1/2) [[0, 0], [1, 1]]
    [1/10, 1/10] 0 (by simp) 0 (by norm_num [argminQ, argminAux, sqEuclid])
  refine ⟨by simp, by norm_num [argminQ, argminAux, sqEuclid], ?_, ?_⟩
  · rw [h.2.2.2.1 (by decide)]
    norm_num [vadd, vsub, smulV]
  · rw [h.2.2.2.2.2.1 1 (by decide)]
    rfl

/-- C4: `LVQ.feedforward` on an initialized instance returns
`argmin(distances) % output_size`, where the argmin index is a minimal
distance index and the first such in iteration order (deterministic
tie-break), and two calls with the same prototypes, distance and
output size return the same class. -/
theorem lvq_feedforward_argmin (lvq : LVQ) (ws : List Vec) (x : Vec)
    (hinit : lvq.weights = some ws) (hne : ws ≠ []) :
    ∀ b, b = argminQ (ws.map (fun w => lvq.dist x w)) →
    lvq.feedforward x = some (b % lvq.output_size) ∧
    b < ws.length ∧
    (∀ j, j < ws.length →
      (ws.map (fun w => lvq.dist x w)).getD b 0 ≤ (ws.map (fun w => lvq.dist x w)).getD j 0) ∧
    (∀ j, j < b →
      (ws.map (fun w => lvq.dist x w)).getD b 0 < (ws.map (fun w => lvq.dist x w)).getD j 0) ∧
    (∀ lvq' : LVQ, lvq'.weights = lvq.weights → lvq'.dist = lvq.dist →
      lvq'.output_size = lvq.output_size → lvq'.feedforward x = lvq.feedforward x) := by
  intro b hb
  have hd : ws.map (fun w => lvq.dist x w) ≠ [] := by
    cases ws with
    | nil => exact absurd rfl hne
    | cons w ws' => simp
  obtain ⟨hlt, hmin, hfirst⟩ := argminQ_spec (ws.map (fun w => lvq.dist x w)) hd
  rw [← hb] at hlt hmin hfirst
  refine ⟨?_, by simpa using hlt, fun j hj => hmin j (by simpa using hj), hfirst, ?_⟩
  · simp [LVQ.feedforward, hinit, LVQ.classifyW, hb]
  · intro lvq' h1 h2 h3
    simp [LVQ.feedforward, hinit, h1, LVQ.classifyW, h2, h3]

/-- C4 witness: a concrete initialized instance. -/
theorem lvq_feedforward_argmin_witness :
    ((⟨2, 2, 1, sqEuclid, fun _ _ _ _ => [], some [[0, 0], [1, 1]], true⟩ :
        LVQ).weights = some [[0, 0], [1, 1]]) ∧
    (([[(0 : ℚ), 0], [1, 1]] : List Vec) ≠ []) ∧
    (⟨2, 2, 1, sqEuclid, fun _ _ _ _ => [], some [[0, 0], [1, 1]], true⟩ :
        LVQ).feedforward [1/10, 1/10] = some 0 := by
  refine ⟨rfl, by simp, ?_⟩
  have h := lvq_feedforward_argmin
    (⟨2, 2, 1, sqEuclid, fun _ _ _ _ => [], some [[0, 0], [1, 1]], true⟩ : LVQ)
    [[0, 0], [1, 1]] [1/10, 1/10] rfl (by simp) 0
    (by norm_num [argminQ, argminAux, sqEuclid])
  simpa using h.1

/-- C5: `save` followed by `load` on a `Network` whose strategy objects
came from the resolvers restores the architecture, the strategy names
(re-resolved into functions from their string keys), the learning rate and
all weights and biases, so the round-tripped instance is equal to the
original and `feedforward` agrees on every input. -/
theorem network_save_load_roundtrip
    (resolveA : String → (Vec → Vec) × (Vec → Vec))
    (resolveC : String → Vec → Vec → Vec) (net : Network)
    (hA : resolveA net.activationType = (net.activationFn, net.activationDeriv))
    (hC : resolveC net.costType = net.costDeriv) :
    Network.load resolveA resolveC net (Network.save net) = net ∧
    ∀ X, (Network.load resolveA resolveC net (Network.save net)).feedforwardOut X =
      net.feedforwardOut X := by
  have h1 : (resolveA net.activationType).1 = net.activationFn := by rw [hA]
  have h2 : (resolveA net.activationType).2 = net.activationDeriv := by rw [hA]
  have heq : Network.load resolveA resolveC net (Network.save net) = net := by
    cases net with
    | mk s nl at' af ad ct cd rd e al lam bs ws =>
      simp only [Network.load, Network.save] at *
      simp [h1, h2, hC]
  exact ⟨heq, fun X => by rw [heq]⟩

/-- C5 witness. -/
theorem network_save_load_roundtrip_witness :
    ((fun _ : String => ((fun v : Vec => v), (fun v : Vec => v))) "sigmoid" =
      (netFresh.activationFn, netFresh.activationDeriv)) ∧
    ((fun _ : String => vsub) "quadratic" = netFresh.costDeriv) ∧
    Network.load (fun _ => ((fun v => v), (fun v => v))) (fun _ => vsub)
      netFresh (Network.save netFresh) = netFresh := by
  refine ⟨rfl, rfl, ?_⟩
  exact (network_save_load_roundtrip (fun _ => ((fun v => v), (fun v => v)))
    (fun _ => vsub) netFresh rfl rfl).1

/-- C6: constructing a `Network` with cost `"cross-entropy"` and any
activation other than `"sigmoid"` fails with the incompatible-cost error
(the check precedes strategy resolution, so this holds for every such
activation name), while construction with `"sigmoid"` and
`"cross-entropy"` succeeds whenever the strategy library supports the
requested keys (which the spec requires of it). -/
theorem network_cross_entropy_requires_sigmoid (env : StrategyEnv)
    (struct : List Nat) (a r : String) (lr mom lam : ℚ)
    (randB : Nat → Nat → ℚ) (randW : Nat → Nat → Nat → ℚ) (rsqrt : Nat → ℚ)
    (ha : a ≠ "sigmoid")
    (hact : ∃ f, env.act "sigmoid" = some f)
    (hcost : ∃ g, env.cost "cross-entropy" = some g)
    (hreg : ∃ h, env.reg r = some h) :
    mkNetwork env struct a "cross-entropy" r lr mom lam randB randW rsqrt =
      .error .IncompatibleCostActivation ∧
    ∃ net, mkNetwork env struct "sigmoid" "cross-entropy" r lr mom lam
      randB randW rsqrt = .ok net := by
  obtain ⟨f, hf⟩ := hact
  obtain ⟨g, hg⟩ := hcost
  obtain ⟨h, hh⟩ := hreg
  constructor
  · simp [mkNetwork, ha]
  · have hok : mkNetwork env struct "sigmoid" "cross-entropy" r lr mom lam
        randB randW rsqrt =
      .ok { struct := struct, n_layers := struct.length,
            activationType := "sigmoid", activationFn := f.1,
            activationDeriv := f.2, costType := "cross-entropy",
            costDeriv := g, regDeriv := h, eta := lr, alpha := mom,
            lambda_ := lam, biases := mkBiases randB struct,
            weights := mkWeights randW rsqrt struct } := by
      simp [mkNetwork, hf, hg, hh]
    exact ⟨_, hok⟩

/-- C6 witness: `"relu"` with cross-entropy is rejected, sigmoid with
cross-entropy is accepted. -/
theorem network_cross_entropy_requires_sigmoid_witness :
    ("relu" ≠ "sigmoid") ∧
    (envId.act "sigmoid" = some ((fun v => v), (fun v => v))) ∧
    (envId.cost "cross-entropy" = some vsub) ∧
    (envId.reg "none" = some (fun w _ _ => smulM 0 w)) ∧
    (mkNetwork envId [2, 2] "relu" "cross-entropy" "none" 3 (1/2) (1/10)
      (fun _ _ => 1) (fun _ _ _ => 1) (fun _ => 1) =
        .error .IncompatibleCostActivation ∧
    ∃ net, mkNetwork envId [2, 2] "sigmoid" "cross-entropy" "none" 3 (1/2)
      (1/10) (fun _ _ => 1) (fun _ _ _ => 1) (fun _ => 1) = .ok net) := by
  refine ⟨by simp, by simp [envId], by simp [envId], by simp [envId], ?_⟩
  exact network_cross_entropy_requires_sigmoid envId [2, 2] "relu" "none"
    3 (1/2) (1/10) (fun _ _ => 1) (fun _ _ _ => 1) (fun _ => 1)
    (by simp) ⟨((fun v => v), (fun v => v)), by simp [envId]⟩
    ⟨vsub, by simp [envId]⟩ ⟨(fun w _ _ => smulM 0 w), by simp [envId]⟩

/-- Construction of the concrete fresh network `netFresh`. -/
theorem mkNetFresh_eq :
    mkNetwork envId [2, 2] "sigmoid" "quadratic" "none" 3 (1/2) (1/10)
      (fun _ _ => 1) (fun _ _ _ => 1) (fun _ => 1) = .ok netFresh := by
  simp only [mkNetwork, envId]
  norm_num [mkBiases, mkWeights, netFresh, List.range_succ]
  exact ⟨rfl, rfl⟩

/-- C7 counterexample: the claim says `feedforward` on a `Network` with no
`train` call and no `load` fails with a `ModelNotInitialized` error, but
`Network.__init__` already fills `biases` and `weights` with random draws
(lines 50–55 of `network.py`), so a freshly constructed network has no
uninitialized state: its `feedforward` computes an ordinary numeric
output.  Here a fresh instance returns the value `[2, 2]` on `[1, 0]`. -/
theorem network_fresh_feedforward_computes :
    mkNetwork envId [2, 2] "sigmoid" "quadratic" "none" 3 (1/2) (1/10)
      (fun _ _ => 1) (fun _ _ _ => 1) (fun _ => 1) = .ok netFresh ∧
    netFresh.feedforwardOut [1, 0] = [2, 2] := by
  refine ⟨mkNetFresh_eq, ?_⟩
  norm_num [netFresh, Network.feedforwardOut, Network.feedforward,
    Network.ffGo, vadd, matVec, dotQ]

/-- C7 amended: only the LVQ engine has an uninitialized state —
`classify` on an `LVQ` whose prototypes were never set fails (iterating
`None` raises; embedded as `none`) — while `Network` construction itself
initializes the parameter arrays to the architecture's shapes, so
`feedforward` on a freshly constructed, never-trained, never-loaded
network does not fail. -/
theorem model_not_initialized_amended :
    (∀ (lvq : LVQ) (x : Vec), lvq.weights = none → lvq.feedforward x = none) ∧
    (∀ env struct a c r lr mom lam randB randW rsqrt net,
      mkNetwork env struct a c r lr mom lam randB randW rsqrt = .ok net →
      net.biases.length = struct.length - 1 ∧
      net.weights.length = struct.length - 1 ∧
      net.n_layers = struct.length) := by
  constructor
  · intro lvq x h
    simp [LVQ.feedforward, h]
  · intro env struct a c r lr mom lam randB randW rsqrt net hmk
    simp only [mkNetwork] at hmk
    split at hmk
    · exact absurd hmk (by simp)
    · split at hmk
      · exact absurd hmk (by simp)
      · split at hmk
        · exact absurd hmk (by simp)
        · split at hmk
          · exact absurd hmk (by simp)
          · injection hmk with hnet
            subst hnet
            refine ⟨?_, ?_, rfl⟩
            · simp [mkBiases]
            · simp [mkWeights]

/-- C7 amended witness: a fresh `LVQ` fails to classify; a fresh
`Network` has fully initialized parameters. -/
theorem model_not_initialized_amended_witness :
    (lvq0.weights = none ∧ lvq0.feedforward [0, 0] = none) ∧
    (mkNetwork envId [2, 2] "sigmoid" "quadratic" "none" 3 (1/2) (1/10)
        (fun _ _ => 1) (fun _ _ _ => 1) (fun _ => 1) = .ok netFresh ∧
      netFresh.biases.length = 1 ∧ netFresh.weights.length = 1 ∧
      netFresh.n_layers = 2) :=
  ⟨⟨rfl, model_not_initialized_amended.1 lvq0 [0, 0] rfl⟩,
    mkNetFresh_eq, model_not_initialized_amended.2 envId [2, 2] "sigmoid"
      "quadratic" "none" 3 (1/2) (1/10) (fun _ _ => 1) (fun _ _ _ => 1)
      (fun _ => 1) netFresh mkNetFresh_eq⟩

/-- C10: when the (nonempty) training set is smaller than the batch size,
fixed-size batching produces no batches, so every epoch of
`Network.train` performs zero mini-batch updates and the weights and
biases are unchanged when `train` returns. -/
theorem network_train_small_trainset_frame (bsz : Nat)
    (tr_d : List (Vec × Vec)) (perms : List (List (Vec × Vec)))
    (net : Network) (hperm : ∀ p ∈ perms, List.Perm p tr_d)
    (hne : tr_d ≠ []) (hlt : tr_d.length < bsz) :
    (Network.train bsz tr_d perms net).weights = net.weights ∧
    (Network.train bsz tr_d perms net).biases = net.biases := by
  have hall : Network.train bsz tr_d perms net = net := by
    induction perms generalizing net with
    | nil => rfl
    | cons p ps ih =>
      have hlen : p.length = tr_d.length :=
        (hperm p (List.mem_cons_self p ps)).length_eq
      have hbat : Network.batches bsz p = [] := by
        rw [Network.batches, dif_neg]
        intro hcon
        omega
      have hepoch : Network.epoch bsz tr_d.length net p = net := by
        rw [Network.epoch, hbat]
        rfl
      show List.foldl (fun nt q => Network.epoch bsz tr_d.length nt q) net (p :: ps) = net
      rw [List.foldl_cons, hepoch]
      exact ih net (fun q hq => hperm q (List.mem_cons_of_mem p hq))
  rw [hall]
  exact ⟨rfl, rfl⟩

/-- C10 witness. -/
theorem network_train_small_trainset_frame_witness :
    (∀ p ∈ [[(([1] : Vec), ([0] : Vec))]], List.Perm p [(([1] : Vec), ([0] : Vec))]) ∧
    ([(([1] : Vec), ([0] : Vec))] ≠ []) ∧
    ([(([1] : Vec), ([0] : Vec))].length < 3) ∧
    (Network.train 3 [(([1] : Vec), ([0] : Vec))] [[(([1] : Vec), ([0] : Vec))]]
      netFresh).weights = netFresh.weights := by
  refine ⟨?_, by simp, by simp, ?_⟩
  · intro p hp
    simp only [List.mem_singleton] at hp
    subst hp
    exact List.Perm.refl _
  · exact (network_train_small_trainset_frame 3 [(([1] : Vec), ([0] : Vec))]
      [[(([1] : Vec), ([0] : Vec))]] netFresh
      (by intro p hp; simp only [List.mem_singleton] at hp; subst hp
          exact List.Perm.refl _)
      (by simp) (by simp)).1

/-- `zip(*[iter(l)]*n)` batching agrees with take/drop chunking: auxiliary
induction on a length bound. -/
theorem batches_eq_specChunks_aux {α : Type} (n : Nat) :
    ∀ (N : Nat) (xs : List α), xs.length ≤ N →
      Network.batches n xs = specChunks n xs := by
  intro N
  induction N with
  | zero =>
    intro xs hx
    have hxs : xs = [] := List.eq_nil_of_length_eq_zero (by omega)
    subst hxs
    rw [Network.batches, dif_neg]
    · simp [specChunks]
    · rintro ⟨h1, h2⟩
      simp at h2
      omega
  | succ N ih =>
    intro xs hx
    by_cases h : n ≠ 0 ∧ n ≤ xs.length
    · obtain ⟨h1, h2⟩ := h
      rw [Network.batches, dif_pos ⟨h1, h2⟩,
        ih (xs.drop n) (by simp only [List.length_drop]; omega)]
      simp only [specChunks, List.length_drop]
      have hdiv : xs.length / n = (xs.length - n) / n + 1 :=
        Nat.div_eq_sub_div (by omega) h2
      rw [hdiv, List.range_succ_eq_map, List.map_cons, List.map_map]
      have hfun : (fun i => ((xs.drop n).drop (i * n)).take n) =
          ((fun i => (xs.drop (i * n)).take n) ∘ Nat.succ) := by
        funext i
        simp only [Function.comp_apply, List.drop_drop, Nat.succ_mul]
        rw [Nat.add_comm]
      rw [hfun]
      simp
    · rw [Network.batches, dif_neg h]
      have hdiv : xs.length / n = 0 := by
        rcases Nat.eq_zero_or_pos n with h0 | h0
        · simp [h0]
        · exact Nat.div_eq_of_lt (by omega)
      simp [specChunks, hdiv]

/-- The code's batching equals the spec's take/drop chunking. -/
theorem batches_eq_specChunks {α : Type} (n : Nat) (xs : List α) :
    Network.batches n xs = specChunks n xs :=
  batches_eq_specChunks_aux n xs.length xs le_rfl

/-- The simultaneous gradient accumulation splits into the two spec-side
sums over the mapped per-example gradients. -/
theorem accumulate_split (net : Network) (batch : List (Vec × Vec)) :
    Network.accumulate net batch =
      ((batch.map (fun xy => (net.backpropagation xy.1 xy.2).1)).foldl
          addVecs (zeroB net.biases),
       (batch.map (fun xy => (net.backpropagation xy.1 xy.2).2)).foldl
          addMats (zeroW net.weights)) := by
  have h := foldl_pair
    (fun a (xy : Vec × Vec) => addVecs a (net.backpropagation xy.1 xy.2).1)
    (fun m (xy : Vec × Vec) => addMats m (net.backpropagation xy.1 xy.2).2)
    batch (zeroB net.biases) (zeroW net.weights)
  rw [Network.accumulate, List.foldl_map, List.foldl_map]
  exact h

/-- The code's mini-batch update is the spec's mini-batch update. -/
theorem batchUpdate_eq_spec (n : Nat) (net : Network)
    (batch : List (Vec × Vec)) :
    Network.batchUpdate n net batch = specBatchUpdate n net batch := by
  simp only [Network.batchUpdate, specBatchUpdate, accumulate_split]

/-- C2: each epoch of `Network.train`, run on the epoch's shuffled
training list, partitions it into consecutive groups of `batchSize`
(dropping a trailing remainder), and for each group sums — does not
average — the per-example gradients from `backpropagation` into
zero-initialized accumulators and applies
`b -= eta·nabla_b`, `w -= eta·(nabla_w + regularization.derivative(w,
lambda, len(trainSet)))`, the regularization term once per batch. -/
theorem network_epoch_matches_spec (bsz : Nat)
    (tr_d shuffled : List (Vec × Vec)) (net : Network)
    (hperm : List.Perm shuffled tr_d) :
    Network.epoch bsz tr_d.length net shuffled =
      (specChunks bsz shuffled).foldl (specBatchUpdate tr_d.length) net := by
  rw [Network.epoch, batches_eq_specChunks]
  have hfn : Network.batchUpdate tr_d.length = specBatchUpdate tr_d.length :=
    funext fun nt => funext fun b => batchUpdate_eq_spec tr_d.length nt b
  rw [hfn]

/-- C2 witness. -/
theorem network_epoch_matches_spec_witness :
    List.Perm [(([1] : Vec), ([0] : Vec))] [(([1] : Vec), ([0] : Vec))] ∧
    Network.epoch 1 ([(([1] : Vec), ([0] : Vec))]).length netFresh
        [(([1] : Vec), ([0] : Vec))] =
      (specChunks 1 [(([1] : Vec), ([0] : Vec))]).foldl
        (specBatchUpdate ([(([1] : Vec), ([0] : Vec))]).length) netFresh :=
  ⟨List.Perm.refl _,
    network_epoch_matches_spec 1 [(([1] : Vec), ([0] : Vec))]
      [(([1] : Vec), ([0] : Vec))] netFresh (List.Perm.refl _)⟩

/-! ### C8: confusion matrix -/

theorem countLabel_cons (xy : Vec × Nat) (rest : List (Vec × Nat)) (i : Nat) :
    countLabel (xy :: rest) i = (if xy.2 = i then 1 else 0) + countLabel rest i := by
  simp only [countLabel, List.filter_cons]
  by_cases h : xy.2 = i
  · simp [h]
    omega
  · simp [h]

theorem evalAcc_foldl_shift (dist : Vec → Vec → ℚ) (osize : Nat)
    (ws : List Vec) (data : List (Vec × Nat)) : ∀ c : Nat,
    data.foldl
      (fun c xy => if LVQ.classifyW dist osize ws xy.1 = xy.2 then c + 1 else c) c =
    c + data.foldl
      (fun c xy => if LVQ.classifyW dist osize ws xy.1 = xy.2 then c + 1 else c) 0 := by
  induction data with
  | nil => simp
  | cons xy rest ih =>
    intro c
    simp only [List.foldl_cons]
    by_cases h : LVQ.classifyW dist osize ws xy.1 = xy.2
    · simp only [if_pos h]
      rw [ih (c + 1), ih (0 + 1)]
      omega
    · simp only [if_neg h]
      exact ih c

theorem evalAccuracyW_cons (dist : Vec → Vec → ℚ) (osize : Nat)
    (ws : List Vec) (xy : Vec × Nat) (rest : List (Vec × Nat)) :
    LVQ.evalAccuracyW dist osize ws (xy :: rest) =
      (if LVQ.classifyW dist osize ws xy.1 = xy.2 then 1 else 0) +
        LVQ.evalAccuracyW dist osize ws rest := by
  by_cases h : LVQ.classifyW dist osize ws xy.1 = xy.2
  · simp only [LVQ.evalAccuracyW, List.foldl_cons, if_pos h]
    rw [evalAcc_foldl_shift dist osize ws rest (0 + 1)]
  · simp only [LVQ.evalAccuracyW, List.foldl_cons, if_neg h]
    simp

theorem map_sum_congr (f g : Nat → ℚ) :
    ∀ n, (∀ i, i < n → f i = g i) →
    ((List.range n).map f).sum = ((List.range n).map g).sum := by
  intro n
  induction n with
  | zero => simp
  | succ m ih =>
    intro h
    rw [List.range_succ]
    simp only [List.map_append, List.sum_append, List.map_cons, List.map_nil,
      List.sum_cons, List.sum_nil]
    rw [ih (fun i hi => h i (by omega)), h m (by omega)]

theorem sum_range_update (y : Nat) (f g : Nat → ℚ) (c : ℚ) :
    ∀ n, y < n → (∀ i, i < n → g i = f i + (if i = y then c else 0)) →
    ((List.range n).map g).sum = ((List.range n).map f).sum + c := by
  intro n
  induction n with
  | zero => intro hy _; omega
  | succ m ih =>
    intro hy hfg
    rw [List.range_succ]
    simp only [List.map_append, List.sum_append, List.map_cons, List.map_nil,
      List.sum_cons, List.sum_nil]
    by_cases hym : y = m
    · rw [map_sum_congr g f m
        (fun i hi => by rw [hfg i (by omega), if_neg (by omega)]; ring)]
      rw [hfg m (by omega), if_pos hym.symm]
      ring
    · rw [ih (by omega) (fun i hi => hfg i (by omega)),
        hfg m (by omega), if_neg (fun hh => hym hh.symm)]
      ring

theorem confusion_step_rowSum (mat : Mat) (y a i : Nat)
    (hylen : y < mat.length) :
    rowSum (mat.set y ((mat.getD y []).set a ((mat.getD y []).getD a 0 + 1))) i =
      rowSum mat i +
        (if y = i then (if a < (mat.getD y []).length then 1 else 0) else 0) := by
  by_cases hiy : i = y
  · subst hiy
    rw [rowSum, getD_set_self mat i _ [] hylen, if_pos rfl]
    by_cases halen : a < (mat.getD i []).length
    · rw [sum_set _ a _ halen, if_pos halen, rowSum]
      ring
    · rw [List.set_eq_of_length_le (by omega), if_neg halen, rowSum]
      ring
  · rw [rowSum, getD_set_ne mat y i _ [] (fun hh => hiy hh.symm), ← rowSum,
      if_neg (fun hh => hiy hh.symm)]
    ring

theorem confusion_step_trace (mat : Mat) (osize y a : Nat)
    (hy : y < osize) (hylen : y < mat.length)
    (halen : a < (mat.getD y []).length) :
    traceQ (mat.set y ((mat.getD y []).set a ((mat.getD y []).getD a 0 + 1)))
        osize =
      traceQ mat osize + (if a = y then 1 else 0) := by
  unfold traceQ
  have hfun : ∀ i, i < osize →
      ((mat.set y ((mat.getD y []).set a
          ((mat.getD y []).getD a 0 + 1))).getD i []).getD i 0 =
        (mat.getD i []).getD i 0 +
          (if i = y then (if a = y then 1 else 0) else 0) := by
    intro i hi
    by_cases hiy : i = y
    · subst hiy
      rw [getD_set_self mat i _ [] hylen, if_pos rfl]
      by_cases hay : a = i
      · subst hay
        rw [getD_set_self _ a _ 0 halen, if_pos rfl]
      · rw [getD_set_ne _ a i _ 0 hay, if_neg hay]
        ring
    · rw [getD_set_ne mat y i _ [] (fun hh => hiy hh.symm), if_neg hiy]
      ring
  exact sum_range_update y (fun i => (mat.getD i []).getD i 0)
    (fun i => ((mat.set y ((mat.getD y []).set a
      ((mat.getD y []).getD a 0 + 1))).getD i []).getD i 0)
    (if a = y then 1 else 0) osize hy hfun

theorem confusion_fold_invariant (dist : Vec → Vec → ℚ) (osize : Nat)
    (ws : List Vec) (hos : 0 < osize) :
    ∀ (data : List (Vec × Nat)) (mat : Mat),
      mat.length = osize →
      (∀ i, i < osize → (mat.getD i []).length = osize) →
      (∀ xy ∈ data, xy.2 < osize) →
      ((data.foldl
          (fun mat xy =>
            let a := LVQ.classifyW dist osize ws xy.1
            mat.set xy.2 ((mat.getD xy.2 []).set a
              ((mat.getD xy.2 []).getD a 0 + 1))) mat).length = osize ∧
       (∀ i, i < osize →
          ((data.foldl
            (fun mat xy =>
              let a := LVQ.classifyW dist osize ws xy.1
              mat.set xy.2 ((mat.getD xy.2 []).set a
                ((mat.getD xy.2 []).getD a 0 + 1))) mat).getD i []).length = osize) ∧
       (∀ i, i < osize →
          rowSum (data.foldl
            (fun mat xy =>
              let a := LVQ.classifyW dist osize ws xy.1
              mat.set xy.2 ((mat.getD xy.2 []).set a
                ((mat.getD xy.2 []).getD a 0 + 1))) mat) i =
            rowSum mat i + (countLabel data i : ℚ)) ∧
       traceQ (data.foldl
          (fun mat xy =>
            let a := LVQ.classifyW dist osize ws xy.1
            mat.set xy.2 ((mat.getD xy.2 []).set a
              ((mat.getD xy.2 []).getD a 0 + 1))) mat) osize =
          traceQ mat osize + (LVQ.evalAccuracyW dist osize ws data : ℚ)) := by
  intro data
  induction data with
  | nil =>
    intro mat h1 h2 _
    refine ⟨h1, h2, ?_, ?_⟩
    · intro i _
      simp [countLabel]
    · simp [LVQ.evalAccuracyW]
  | cons xy rest ih =>
    intro mat h1 h2 hlab
    have hy : xy.2 < osize := hlab xy (List.mem_cons_self xy rest)
    have ha : LVQ.classifyW dist osize ws xy.1 < osize := by
      unfold LVQ.classifyW
      exact Nat.mod_lt _ hos
    have hylen : xy.2 < mat.length := by omega
    have halen : LVQ.classifyW dist osize ws xy.1 <
        (mat.getD xy.2 []).length := by
      rw [h2 xy.2 hy]
      exact ha
    have hm1rows : ∀ i, i < osize →
        ((mat.set xy.2 ((mat.getD xy.2 []).set
          (LVQ.classifyW dist osize ws xy.1)
          ((mat.getD xy.2 []).getD (LVQ.classifyW dist osize ws xy.1) 0 + 1))).getD
            i []).length = osize := by
      intro i hi
      by_cases hiy : i = xy.2
      · rw [hiy, getD_set_self mat xy.2 _ [] hylen]
        rw [List.length_set]
        exact h2 xy.2 hy
      · rw [getD_set_ne mat xy.2 i _ [] (fun hh => hiy hh.symm)]
        exact h2 i hi
    obtain ⟨k1, k2, k3, k4⟩ := ih
      (mat.set xy.2 ((mat.getD xy.2 []).set (LVQ.classifyW dist osize ws xy.1)
        ((mat.getD xy.2 []).getD (LVQ.classifyW dist osize ws xy.1) 0 + 1)))
      (by simpa using h1) hm1rows
      (fun q hq => hlab q (List.mem_cons_of_mem xy hq))
    simp only [List.foldl_cons]
    refine ⟨k1, k2, ?_, ?_⟩
    · intro i hi
      rw [k3 i hi,
        confusion_step_rowSum mat xy.2 (LVQ.classifyW dist osize ws xy.1) i hylen,
        if_pos halen, countLabel_cons]
      push_cast
      ring
    · rw [k4, confusion_step_trace mat osize xy.2
        (LVQ.classifyW dist osize ws xy.1) hy hylen halen,
        evalAccuracyW_cons]
      push_cast
      ring

/-- C8: on an initialized `LVQ` instance, `get_confusion` over a dataset
with in-range integer labels yields a matrix whose row `i` sums to the
number of examples with true label `i`, and whose trace equals the
accuracy count (`eval_accuracy`), so trace divided by the dataset size is
the accuracy fraction. -/
theorem lvq_confusion_rows_and_trace (lvq : LVQ) (ws : List Vec)
    (data : List (Vec × Nat)) (hinit : lvq.weights = some ws)
    (hos : 0 < lvq.output_size)
    (hlab : ∀ xy ∈ data, xy.2 < lvq.output_size) :
    lvq.getConfusion data =
      some (LVQ.getConfusionW lvq.dist lvq.output_size ws data) ∧
    (∀ i, i < lvq.output_size →
      rowSum (LVQ.getConfusionW lvq.dist lvq.output_size ws data) i =
        (countLabel data i : ℚ)) ∧
    traceQ (LVQ.getConfusionW lvq.dist lvq.output_size ws data)
        lvq.output_size =
      (LVQ.evalAccuracyW lvq.dist lvq.output_size ws data : ℚ) ∧
    traceQ (LVQ.getConfusionW lvq.dist lvq.output_size ws data)
        lvq.output_size / (data.length : ℚ) =
      (LVQ.evalAccuracyW lvq.dist lvq.output_size ws data : ℚ) /
        (data.length : ℚ) := by
  have hz1 : (List.replicate lvq.output_size
      (List.replicate lvq.output_size (0 : ℚ))).length = lvq.output_size := by
    simp
  have hz2 : ∀ i, i < lvq.output_size →
      ((List.replicate lvq.output_size
        (List.replicate lvq.output_size (0 : ℚ))).getD i []).length =
        lvq.output_size := by
    intro i hi
    rw [getD_replicate _ _ _ _ hi]
    simp
  obtain ⟨k1, k2, k3, k4⟩ := confusion_fold_invariant lvq.dist lvq.output_size
    ws hos data _ hz1 hz2 hlab
  have hzrow : ∀ i, i < lvq.output_size →
      rowSum (List.replicate lvq.output_size
        (List.replicate lvq.output_size (0 : ℚ))) i = 0 := by
    intro i hi
    rw [rowSum, getD_replicate _ _ _ _ hi]
    simp
  have hztr : traceQ (List.replicate lvq.output_size
      (List.replicate lvq.output_size (0 : ℚ))) lvq.output_size = 0 := by
    unfold traceQ
    rw [map_sum_congr _ (fun _ => (0 : ℚ)) lvq.output_size]
    · simp
    · intro i hi
      rw [getD_replicate _ _ _ _ hi, getD_replicate _ _ _ _ hi]
  have hrows : ∀ i, i < lvq.output_size →
      rowSum (LVQ.getConfusionW lvq.dist lvq.output_size ws data) i =
        (countLabel data i : ℚ) := by
    intro i hi
    have hk := k3 i hi
    rw [hzrow i hi] at hk
    simpa [LVQ.getConfusionW] using hk
  have htrace : traceQ (LVQ.getConfusionW lvq.dist lvq.output_size ws data)
      lvq.output_size =
      (LVQ.evalAccuracyW lvq.dist lvq.output_size ws data : ℚ) := by
    have hk := k4
    rw [hztr] at hk
    simpa [LVQ.getConfusionW] using hk
  refine ⟨by simp [LVQ.getConfusion, hinit], hrows, htrace, by rw [htrace]⟩

/-- C8 witness. -/
theorem lvq_confusion_rows_and_trace_witness :
    ((⟨2, 2, 1, sqEuclid, fun _ _ _ _ => [], some [[0, 0], [1, 1]], true⟩ :
        LVQ).weights = some [[0, 0], [1, 1]]) ∧
    (0 < 2) ∧
    (∀ xy ∈ ([([0, 0], 0), ([1, 1], 1)] : List (Vec × Nat)), xy.2 < 2) ∧
    traceQ (LVQ.getConfusionW sqEuclid 2 [[0, 0], [1, 1]]
        [([0, 0], 0), ([1, 1], 1)]) 2 =
      (LVQ.evalAccuracyW sqEuclid 2 [[0, 0], [1, 1]]
        [([0, 0], 0), ([1, 1], 1)] : ℚ) := by
  refine ⟨rfl, by decide, by decide, ?_⟩
  exact (lvq_confusion_rows_and_trace
    (⟨2, 2, 1, sqEuclid, fun _ _ _ _ => [], some [[0, 0], [1, 1]], true⟩ : LVQ)
    [[0, 0], [1, 1]] [([0, 0], 0), ([1, 1], 1)] rfl (by decide)
    (by decide)).2.2.1

/-! ### C9: LVQ early stopping -/

theorem trainGo_early_stop (dist : Vec → Vec → ℚ) (osize : Nat)
    (etaDecay : Bool) (tr_d vd : List (Vec × Nat)) :
    ∀ (epochs : Nat) (ws : List Vec) (eta s : ℚ) (trE vaE : List ℚ),
      trE.length = vaE.length →
      (∀ i, i < vaE.length → ¬ vaE.getD i 0 < 1 / 100) →
      ((LVQ.trainGo dist osize etaDecay true tr_d (some vd) epochs ws eta s
          trE vaE).1.length =
        (LVQ.trainGo dist osize etaDecay true tr_d (some vd) epochs ws eta s
          trE vaE).2.1.length ∧
       (LVQ.trainGo dist osize etaDecay true tr_d (some vd) epochs ws eta s
          trE vaE).2.1.length ≤ vaE.length + epochs ∧
       (∀ i, i < (LVQ.trainGo dist osize etaDecay true tr_d (some vd) epochs
            ws eta s trE vaE).2.1.length →
          (LVQ.trainGo dist osize etaDecay true tr_d (some vd) epochs ws eta s
            trE vaE).2.1.getD i 0 < 1 / 100 →
          (LVQ.trainGo dist osize etaDecay true tr_d (some vd) epochs ws eta s
            trE vaE).2.1.length = i + 1)) := by
  intro epochs
  induction epochs with
  | zero =>
    intro ws eta s trE vaE hlen hva
    simp only [LVQ.trainGo]
    exact ⟨hlen, by omega, fun i hi hlt => absurd hlt (hva i hi)⟩
  | succ n ih =>
    intro ws eta s trE vaE hlen hva
    simp only [LVQ.trainGo]
    split
    · -- early stop taken: the appended validation error is below 1%
      refine ⟨by simp [hlen],
        by simp only [List.length_append, List.length_cons, List.length_nil]; omega, ?_⟩
      intro i hi hlt
      simp only [List.length_append, List.length_cons, List.length_nil] at hi ⊢
      rcases Nat.lt_or_ge i vaE.length with hcase | hcase
      · rw [getD_append_lt vaE _ i 0 hcase] at hlt
        exact absurd hlt (hva i hcase)
      · omega
    · -- validation error not below 1%: recurse
      rename_i hcond
      have hv : ¬ LVQ.evalErrorRateW dist osize
          (LVQ.sweep dist osize eta tr_d ws s).1 vd < 1 / 100 := by
        intro hc
        exact hcond ⟨trivial, hc⟩
      have hlen' : (trE ++ [LVQ.evalErrorRateW dist osize
            (LVQ.sweep dist osize eta tr_d ws s).1 tr_d]).length =
          (vaE ++ [LVQ.evalErrorRateW dist osize
            (LVQ.sweep dist osize eta tr_d ws s).1 vd]).length := by
        simp [hlen]
      have hva' : ∀ i, i < (vaE ++ [LVQ.evalErrorRateW dist osize
            (LVQ.sweep dist osize eta tr_d ws s).1 vd]).length →
          ¬ (vaE ++ [LVQ.evalErrorRateW dist osize
            (LVQ.sweep dist osize eta tr_d ws s).1 vd]).getD i 0 < 1 / 100 := by
        intro i hi
        simp only [List.length_append, List.length_cons, List.length_nil] at hi
        rcases Nat.lt_or_ge i vaE.length with hcase | hcase
        · rw [getD_append_lt vaE _ i 0 hcase]
          exact hva i hcase
        · have hieq : i = vaE.length := by omega
          rw [hieq, getD_concat_len]
          exact hv
      obtain ⟨p1, p2, p3⟩ := ih (LVQ.sweep dist osize eta tr_d ws s).1
        (if etaDecay then
          (if eta < 1 then eta / (1 + (LVQ.sweep dist osize eta tr_d ws s).2 * eta)
           else 1)
         else eta)
        (LVQ.sweep dist osize eta tr_d ws s).2
        (trE ++ [LVQ.evalErrorRateW dist osize
          (LVQ.sweep dist osize eta tr_d ws s).1 tr_d])
        (vaE ++ [LVQ.evalErrorRateW dist osize
          (LVQ.sweep dist osize eta tr_d ws s).1 vd])
        hlen' hva'
      refine ⟨p1, ?_, p3⟩
      have hlen2 : (vaE ++ [LVQ.evalErrorRateW dist osize
          (LVQ.sweep dist osize eta tr_d ws s).1 vd]).length =
          vaE.length + 1 := by simp
      omega

/-- C9: `LVQ.train` with a validation set and `estop = true` stops the
epoch loop the first time the recorded validation error rate drops below
1%: the training and validation error histories have equal length, at
most `epochs` entries, and any entry below 1% is the last one — so if
epoch `k` is the first with validation error below 1%, the histories have
length exactly `k`, and no epoch after `k` runs. -/
theorem lvq_train_early_stop (lvq : LVQ) (tr_d vd : List (Vec × Nat))
    (eta : ℚ) (epochs : Nat) (etaDecay : Bool) :
    (lvq.train tr_d eta epochs etaDecay (some vd) true).1.length =
      (lvq.train tr_d eta epochs etaDecay (some vd) true).2.1.length ∧
    (lvq.train tr_d eta epochs etaDecay (some vd) true).2.1.length ≤ epochs ∧
    (∀ i, i < (lvq.train tr_d eta epochs etaDecay (some vd) true).2.1.length →
      (lvq.train tr_d eta epochs etaDecay (some vd) true).2.1.getD i 0 < 1 / 100 →
      (lvq.train tr_d eta epochs etaDecay (some vd) true).2.1.length = i + 1) := by
  obtain ⟨p1, p2, p3⟩ := trainGo_early_stop lvq.dist lvq.output_size etaDecay
    tr_d vd epochs
    (if lvq.init then lvq.weights.getD []
     else lvq.winit lvq.input_size lvq.output_size lvq.ppc tr_d)
    eta 1 [] [] rfl (by simp)
  have h1 : (lvq.train tr_d eta epochs etaDecay (some vd) true).1 =
      (LVQ.trainGo lvq.dist lvq.output_size etaDecay true tr_d (some vd) epochs
        (if lvq.init then lvq.weights.getD []
         else lvq.winit lvq.input_size lvq.output_size lvq.ppc tr_d)
        eta 1 [] []).1 := rfl
  have h2 : (lvq.train tr_d eta epochs etaDecay (some vd) true).2.1 =
      (LVQ.trainGo lvq.dist lvq.output_size etaDecay true tr_d (some vd) epochs
        (if lvq.init then lvq.weights.getD []
         else lvq.winit lvq.input_size lvq.output_size lvq.ppc tr_d)
        eta 1 [] []).2.1 := rfl
  rw [h1, h2]
  refine ⟨p1, ?_, p3⟩
  simpa using p2

/-! ### C1: backpropagation matches the spec's recursion -/

theorem feedforward_lengths (net : Network) (X : Vec) (L : Nat)
    (hW : net.weights.length = L) (hB : net.biases.length = L) :
    (net.feedforward X).1.length = L + 1 ∧
    (net.feedforward X).2.length = L := by
  have h := ffGo_lengths net.activationFn (net.biases.zip net.weights) X
  have hz : (net.biases.zip net.weights).length = L := by
    rw [List.length_zip, hW, hB]
    exact Nat.min_self L
  rw [Network.feedforward]
  exact ⟨by rw [h.1, hz], by rw [h.2, hz]⟩

theorem bpLoop_spec (ad : Vec → Vec) (ws : List Mat) (zs aList : List Vec)
    (dOut : Vec) (L : Nat) (hws : ws.length = L) (hzs : zs.length = L)
    (haL : aList.length = L + 1) :
    ∀ (steps : Nat) (l : Nat) (nb : List Vec) (nw : List Mat),
      2 ≤ l → steps + l = L + 1 → nb.length = L → nw.length = L →
      ∀ i,
        ((Network.bpLoop ad ws zs aList steps l
            (specDelta ad ws zs dOut L (l - 2)) nb nw).1.getD i [] =
          if i + l ≤ L then specDelta ad ws zs dOut L (L - 1 - i)
          else nb.getD i []) ∧
        ((Network.bpLoop ad ws zs aList steps l
            (specDelta ad ws zs dOut L (l - 2)) nb nw).2.getD i [] =
          if i + l ≤ L then
            outer (specDelta ad ws zs dOut L (L - 1 - i)) (aList.getD i [])
          else nw.getD i []) := by
  intro steps
  induction steps with
  | zero =>
    intro l nb nw h2 hsum hnb hnw i
    simp only [Network.bpLoop]
    rw [if_neg (by omega), if_neg (by omega)]
    exact ⟨rfl, rfl⟩
  | succ n ih =>
    intro l nb nw h2 hsum hnb hnw i
    have hlL : l ≤ L := by omega
    have hdelta : hadamard
        (matVec (ws.getD (ws.length - l + 1) []).transpose
          (specDelta ad ws zs dOut L (l - 2)))
        (ad (zs.getD (zs.length - l) [])) =
        specDelta ad ws zs dOut L (l - 1) := by
      have hl1 : l - 1 = (l - 2) + 1 := by omega
      rw [hl1]
      show _ = specDelta ad ws zs dOut L ((l - 2) + 1)
      rw [specDelta]
      have e1 : ws.length - l + 1 = L - 1 - (l - 2) := by omega
      have e2 : zs.length - l = L - 2 - (l - 2) := by omega
      rw [e1, e2]
    simp only [Network.bpLoop]
    rw [hdelta, show l - 1 = l + 1 - 2 from by omega]
    obtain ⟨q1, q2⟩ := ih (l + 1)
      (nb.set (nb.length - l) (specDelta ad ws zs dOut L (l + 1 - 2)))
      (nw.set (nw.length - l)
        (outer (specDelta ad ws zs dOut L (l + 1 - 2))
          (aList.getD (aList.length - l - 1) [])))
      (by omega) (by omega) (by simp [hnb]) (by simp [hnw]) i
    constructor
    · rw [q1]
      by_cases hc1 : i + (l + 1) ≤ L
      · rw [if_pos (by omega), if_pos (by omega)]
      · by_cases hc2 : i + l ≤ L
        · rw [if_neg (by omega), if_pos hc2]
          rw [show nb.length - l = i from by omega,
            getD_set_self _ i _ [] (by omega)]
          rw [show l + 1 - 2 = L - 1 - i from by omega]
        · rw [if_neg (by omega), if_neg hc2]
          exact getD_set_ne _ _ _ _ _ (by omega)
    · rw [q2]
      by_cases hc1 : i + (l + 1) ≤ L
      · rw [if_pos (by omega), if_pos (by omega)]
      · by_cases hc2 : i + l ≤ L
        · rw [if_neg (by omega), if_pos hc2]
          rw [show nw.length - l = i from by omega,
            getD_set_self _ i _ [] (by omega)]
          rw [show l + 1 - 2 = L - 1 - i from by omega,
            show aList.length - l - 1 = i from by omega]
        · rw [if_neg (by omega), if_neg hc2]
          exact getD_set_ne _ _ _ _ _ (by omega)

/-- C1: on a consistently shaped network (`L ≥ 1` layer transitions),
`backpropagation(X, y)` returns per-layer gradients computed exactly as
the spec's recursion: the bias gradient of transition `i` is
`delta_i`, where `delta_{L-1}` is `cost.derivative(a_last, y)` — times
`activation.derivative(z_last)` elementwise unless the cost is
cross-entropy — and `delta_i = (W_{i+1}ᵗ·delta_{i+1}) ⊙
activation.derivative(z_i)` going backward; the weight gradient of
transition `i` is the outer product `delta_i · a_iᵗ` with the activation
entering that transition. -/
theorem backpropagation_matches_spec (net : Network) (X y : Vec) (L : Nat)
    (hW : net.weights.length = L) (hB : net.biases.length = L)
    (hS : net.n_layers = L + 1) (hL : 1 ≤ L) :
    ∀ i, i < L →
      ((net.backpropagation X y).1.getD i [] =
        specDelta net.activationDeriv net.weights (net.feedforward X).2
          (specDeltaOut net X y) L (L - 1 - i)) ∧
      ((net.backpropagation X y).2.getD i [] =
        outer (specDelta net.activationDeriv net.weights (net.feedforward X).2
          (specDeltaOut net X y) L (L - 1 - i))
          ((net.feedforward X).1.getD i [])) := by
  intro i hi
  obtain ⟨ha1, ha2⟩ := feedforward_lengths net X L hW hB
  have hnb0 : (zeroB net.biases).length = L := by simp [zeroB, hB]
  have hnw0 : (zeroW net.weights).length = L := by simp [zeroW, hW]
  have hbp : net.backpropagation X y =
      Network.bpLoop net.activationDeriv net.weights (net.feedforward X).2
        (net.feedforward X).1 (net.n_layers - 2) 2
        (specDeltaOut net X y)
        ((zeroB net.biases).set ((zeroB net.biases).length - 1)
          (specDeltaOut net X y))
        ((zeroW net.weights).set ((zeroW net.weights).length - 1)
          (outer (specDeltaOut net X y)
            ((net.feedforward X).1.getD
              ((net.feedforward X).1.length - 2) []))) := rfl
  have hloop := bpLoop_spec net.activationDeriv net.weights
    (net.feedforward X).2 (net.feedforward X).1 (specDeltaOut net X y) L
    hW ha2 ha1 (net.n_layers - 2) 2
    ((zeroB net.biases).set ((zeroB net.biases).length - 1)
      (specDeltaOut net X y))
    ((zeroW net.weights).set ((zeroW net.weights).length - 1)
      (outer (specDeltaOut net X y)
        ((net.feedforward X).1.getD ((net.feedforward X).1.length - 2) [])))
    (by omega) (by omega) (by simp [hnb0]) (by simp [hnw0]) i
  rw [show specDelta net.activationDeriv net.weights (net.feedforward X).2
      (specDeltaOut net X y) L (2 - 2) = specDeltaOut net X y from rfl] at hloop
  rw [hbp]
  obtain ⟨q1, q2⟩ := hloop
  constructor
  · rw [q1]
    by_cases hc : i + 2 ≤ L
    · rw [if_pos hc]
    · rw [if_neg hc]
      rw [show (zeroB net.biases).length - 1 = i from by omega,
        getD_set_self _ i _ [] (by omega),
        show L - 1 - i = 0 from by omega]
      rfl
  · rw [q2]
    by_cases hc : i + 2 ≤ L
    · rw [if_pos hc]
    · rw [if_neg hc]
      rw [show (zeroW net.weights).length - 1 = i from by omega,
        getD_set_self _ i _ [] (by omega),
        show L - 1 - i = 0 from by omega,
        show (net.feedforward X).1.length - 2 = i from by omega]
      rfl

/-- C1 witness: the concrete fresh single-transition network. -/
theorem backpropagation_matches_spec_witness :
    netFresh.weights.length = 1 ∧ netFresh.biases.length = 1 ∧
    netFresh.n_layers = 1 + 1 ∧ 1 ≤ 1 ∧ 0 < 1 ∧
    ((netFresh.backpropagation [1, 0] [0, 0]).1.getD 0 [] =
      specDelta netFresh.activationDeriv netFresh.weights
        (netFresh.feedforward [1, 0]).2
        (specDeltaOut netFresh [1, 0] [0, 0]) 1 (1 - 1 - 0)) ∧
    ((netFresh.backpropagation [1, 0] [0, 0]).2.getD 0 [] =
      outer (specDelta netFresh.activationDeriv netFresh.weights
        (netFresh.feedforward [1, 0]).2
        (specDeltaOut netFresh [1, 0] [0, 0]) 1 (1 - 1 - 0))
        ((netFresh.feedforward [1, 0]).1.getD 0 [])) := by
  obtain ⟨w1, w2⟩ := backpropagation_matches_spec netFresh [1, 0] [0, 0] 1
    rfl rfl rfl (by omega) 0 (by omega)
  exact ⟨rfl, rfl, rfl, by omega, by omega, w1, w2⟩
